import Mathlib

/-!
Shallow embedding of `src/app.py` (audio-noise-removal) and proofs of the
spec claims about it.

Modelling conventions:
* Audio samples are exact rationals (ℚ); numpy float arrays become `List ℚ`.
* `np.max` raises `ValueError` on a zero-size array, so the peak computation
  is `Option`-valued and pipeline stages that call it are `Except`-valued.
* External library calls (librosa decode, soundfile decode, noisereduce,
  soundfile write) are modelled at their interfaces: decoders become
  parameters of `load_audio`, `nr.reduce_noise` becomes a parameter of
  `remove_noise`, and `sf.write` is modelled by recording the exact
  arguments the source passes to it.
-/

namespace NoiseRemovalApp

/-- Embedding of `np.max` on a one-dimensional array: `none` on the empty
array (numpy raises `ValueError: zero-size array to reduction operation
maximum`), otherwise the left fold of `max` over the elements. -/
def npMax : List ℚ → Option ℚ
  | [] => none
  | x :: xs => some (xs.foldl max x)

/-- Embedding of `np.max(np.abs(audio_data))`, the peak absolute amplitude,
as computed at lines 29–30, 38–39 and 80–81 of `src/app.py`. -/
def peakOf (xs : List ℚ) : Option ℚ := npMax (xs.map (fun x => |x|))

/-- Lines 28–30 (and identically lines 38–39) of `load_audio` in
`src/app.py`: if the peak absolute amplitude is positive, divide every
sample by it; a zero-size array makes `np.max` raise. -/
def normalizeStep (audio_data : List ℚ) : Except String (List ℚ) :=
  match peakOf audio_data with
  | none => Except.error "zero-size array to reduction operation maximum"
  | some p => Except.ok (if p > 0 then audio_data.map (fun x => x / p) else audio_data)

/-- The guard `np.max(np.abs(audio_data)) > 0` at line 29 of `src/app.py`:
`true` exactly when the division at line 30 executes. -/
def normalizeDivides (audio_data : List ℚ) : Bool :=
  match peakOf audio_data with
  | none => false
  | some p => decide (p > 0)

/-- The guard `np.max(np.abs(audio_data)) > 0` at line 80 of `src/app.py`:
`true` exactly when the division at line 81 executes. -/
def exportDivides (audio_data : List ℚ) : Bool :=
  match peakOf audio_data with
  | none => false
  | some p => decide (p > 0)

/-- Elementwise addition of two rows, as numpy adds array slices. -/
def vecAdd (a b : List ℚ) : List ℚ := List.zipWith (· + ·) a b

/-- Embedding of `np.sum(rows, axis=0)`: the elementwise sum of the rows of
a two-dimensional array. -/
def npSumAxis0 : List (List ℚ) → List ℚ
  | [] => []
  | r :: rs => rs.foldl vecAdd r

/-- Embedding of `np.mean(audio_data, axis=0)` at line 26 of `src/app.py`
(librosa layout: each row is one channel): elementwise sum of the rows
divided by the number of rows. -/
def npMeanAxis0 (rows : List (List ℚ)) : List ℚ :=
  (npSumAxis0 rows).map (fun s => s / (rows.length : ℚ))

/-- Embedding of `np.mean(audio_data, axis=1)` at line 37 of `src/app.py`
(soundfile layout: each row is one frame, i.e. the channel values at one
sample index): per-row mean. -/
def npMeanAxis1 (rows : List (List ℚ)) : List ℚ :=
  rows.map (fun r => r.sum / (r.length : ℚ))

/-- A decoded numpy array as returned by either decoder: one-dimensional
(mono) or two-dimensional (multi-channel). -/
inductive DecodedArray : Type
  | mono (samples : List ℚ)
  | multi (rows : List (List ℚ))

/-- Lines 25–26 of `src/app.py`: the `ndim` check and axis-0 collapse on
the librosa path (librosa returns channel-major data). -/
def toMonoAxis0 : DecodedArray → List ℚ
  | DecodedArray.mono s => s
  | DecodedArray.multi rows => npMeanAxis0 rows

/-- Lines 36–37 of `src/app.py`: the `ndim` check and axis-1 collapse on
the soundfile fallback path (soundfile returns frame-major data). -/
def toMonoAxis1 : DecodedArray → List ℚ
  | DecodedArray.mono s => s
  | DecodedArray.multi rows => npMeanAxis1 rows

/-- One decode attempt followed by mono collapse and normalization, i.e.
the body of the inner `try` (lines 22–30) resp. of the `except` block
(lines 35–39) of `load_audio`. The decoder itself is external; `none`
models it raising, `some` models the `(array, sample_rate)` it returns.
Any exception inside the block (decoder failure, or `np.max` raising on an
empty array) makes the whole block raise, modelled as `none`. -/
def decodePath (toMono : DecodedArray → List ℚ)
    (decoded : Option (DecodedArray × ℕ)) : Option (List ℚ × ℕ) :=
  match decoded with
  | none => none
  | some (arr, sr) =>
    match normalizeStep (toMono arr) with
    | Except.error _ => none
    | Except.ok ys => some (ys, sr)

/-- Result of `load_audio`: the returned `(audio_data, sample_rate)` pair
(`none` models the `return None, None` at line 48), plus whether
`os.unlink(tmp_file_path)` at line 42 was executed before returning. -/
structure LoadResult : Type where
  audio_result : Option (List ℚ × ℕ)
  tmpUnlinked : Bool

/-- Control flow of `load_audio` (lines 12–48 of `src/app.py`), with the
two external decoders as parameters. If the primary (librosa) block
succeeds, or it raises and the fallback (soundfile) block succeeds,
execution reaches `os.unlink` at line 42 and returns the audio. If the
fallback block raises too, the exception propagates out of the inner
`except` block past line 42 to the outer handler, which returns
`None, None` at line 48 — without unlinking the temporary file. -/
def load_audio (primary fallback : Option (DecodedArray × ℕ)) : LoadResult :=
  match decodePath toMonoAxis0 primary with
  | some r => { audio_result := some r, tmpUnlinked := true }
  | none =>
    match decodePath toMonoAxis1 fallback with
    | some r => { audio_result := some r, tmpUnlinked := true }
    | none => { audio_result := none, tmpUnlinked := false }

/-- The rescaling at lines 79–81 of `audio_to_bytes` in `src/app.py`: if
the peak absolute amplitude is positive, divide every sample by it and
multiply by 0.95; a zero-size array makes `np.max` raise. -/
def exportRescale (audio_data : List ℚ) : Except String (List ℚ) :=
  match peakOf audio_data with
  | none => Except.error "zero-size array to reduction operation maximum"
  | some p =>
    Except.ok (if p > 0 then audio_data.map (fun x => x / p * 0.95) else audio_data)

/-- The WAV write call at line 87 of `src/app.py`, modelled by recording
the arguments passed to the external `sf.write`: the float samples, the
sample rate, and the literal `format='WAV'`, `subtype='PCM_16'` (16-bit
signed PCM; quantization itself happens inside the external library). -/
structure WavFile : Type where
  samples : List ℚ
  samplerate : ℕ
  format : String
  subtype : String

/-- `audio_to_bytes` (lines 76–92 of `src/app.py`): rescale to 0.95 peak,
cast to float32 (identity in the exact-rational model), and hand the data
to `sf.write` with `format='WAV'`, `subtype='PCM_16'` and the caller's
sample rate. The `except` branch (line 90) is reached when `np.max`
raises on an empty array. -/
def audio_to_bytes (audio_data : List ℚ) (sample_rate : ℕ) : Except String WavFile :=
  match exportRescale audio_data with
  | Except.error e => Except.error e
  | Except.ok scaled =>
    Except.ok { samples := scaled, samplerate := sample_rate,
                format := "WAV", subtype := "PCM_16" }

/-- `remove_noise` (lines 50–63 of `src/app.py`): a pass-through call to
the external `nr.reduce_noise` with the given `stationary` and
`prop_decrease` arguments (the Python defaults are `stationary=True`,
`prop_decrease=1.0`; `main` always supplies both explicitly). The
external routine is a parameter; `none` models it raising, which the
`except` branch turns into `return None`. -/
def remove_noise (reduceNoise : List ℚ → ℕ → Bool → ℚ → Option (List ℚ))
    (audio_data : List ℚ) (sample_rate : ℕ)
    (stationary : Bool) (prop_decrease : ℚ) : Option (List ℚ) :=
  reduceNoise audio_data sample_rate stationary prop_decrease

/-- The denoise step as `main` performs it (lines 170–182 of
`src/app.py`): call `remove_noise` on the loaded signal and keep using the
same `sample_rate` variable for the cleaned audio afterwards. -/
def denoiseStage (reduceNoise : List ℚ → ℕ → Bool → ℚ → Option (List ℚ))
    (sig : List ℚ × ℕ) (stationary : Bool) (prop_decrease : ℚ) :
    Option (List ℚ × ℕ) :=
  match remove_noise reduceNoise sig.1 sig.2 stationary prop_decrease with
  | none => none
  | some cleaned => some (cleaned, sig.2)

/-- Configuration of a numeric slider widget, as passed to
`st.sidebar.slider`. -/
structure SliderConfig : Type where
  min_value : ℚ
  max_value : ℚ
  value : ℚ
  step : ℚ

/-- Configuration of a checkbox widget, as passed to
`st.sidebar.checkbox`. -/
structure CheckboxConfig : Type where
  value : Bool

/-- The `prop_decrease` slider (lines 114–121 of `src/app.py`):
`min_value=0.1, max_value=1.0, value=0.8, step=0.1`. -/
def propDecreaseSlider : SliderConfig :=
  { min_value := 0.1, max_value := 1.0, value := 0.8, step := 0.1 }

/-- The `stationary` checkbox (lines 108–112 of `src/app.py`):
`value=True`. -/
def stationaryCheckbox : CheckboxConfig := { value := true }

/-- Python's `str.split(sep)` for a single-character separator, on
character lists; `split` always returns a nonempty list, and splitting the
empty string gives `[""]`. -/
def pySplit (sep : Char) : List Char → List (List Char)
  | [] => [[]]
  | c :: cs =>
    match pySplit sep cs with
    | [] => [[c]]
    | r :: rs => if c = sep then [] :: r :: rs else (c :: r) :: rs

/-- `uploaded_file.name.split('.')[0]` as used at lines 190 and 204 of
`src/app.py`: the part of the file name before the first dot. -/
def pySplitDotHead (name : List Char) : List Char :=
  (pySplit '.' name).headD []

/-- The download file name `f"cleaned_{uploaded_file.name.split('.')[0]}.wav"`
at lines 190 and 204 of `src/app.py`. -/
def downloadFileName (name : List Char) : List Char :=
  "cleaned_".data ++ pySplitDotHead name ++ ".wav".data

/-- The `mime` argument of both `st.download_button` calls (lines 191 and
205 of `src/app.py`). -/
def downloadMime : String := "audio/wav"

/-- Concatenate name parts back with dots between them (inverse of
splitting on a dot). -/
def joinDot : List (List Char) → List Char
  | [] => []
  | [p] => p
  | p :: ps => p ++ '.' :: joinDot ps

/-- Modelled from the spec: the original file's basename, "the name
without its extension" — everything before the LAST dot, or the whole
name when it contains no dot. This is the spec-side definition used to
compare against the source's `name.split('.')[0]`. -/
def specBasename (name : List Char) : List Char :=
  match pySplit '.' name with
  | [] => name
  | [_] => name
  | p :: ps => joinDot (p :: ps).dropLast

/-- Modelled from the spec: per-sample-index arithmetic mean across
channels for a channel-major multichannel signal with `n` samples per
channel. This is the spec-side definition of the mono collapse, to be
compared against the source's axis reductions. -/
def specMonoChannelMajor (rows : List (List ℚ)) (n : ℕ) : List ℚ :=
  (List.range n).map (fun i => (rows.map (fun ch => ch.getD i 0)).sum / (rows.length : ℚ))

/-- The frame-major layout of the same channel-major multichannel signal:
frame `i` lists the channel values at sample index `i`. This is what the
soundfile decoder returns for the file whose librosa decode is `rows`. -/
def frameMajorView (rows : List (List ℚ)) (n : ℕ) : List (List ℚ) :=
  (List.range n).map (fun i => rows.map (fun ch => ch.getD i 0))

/-! ## Helper lemmas about the peak computation -/

lemma le_foldl_max_init (l : List ℚ) : ∀ a : ℚ, a ≤ l.foldl max a := by
  induction l with
  | nil => intro a; exact le_refl a
  | cons b l ih =>
    intro a
    exact le_trans (le_max_left a b) (ih (max a b))

lemma le_foldl_max_of_mem (l : List ℚ) : ∀ (a x : ℚ), x ∈ l → x ≤ l.foldl max a := by
  induction l with
  | nil => intro a x hx; cases hx
  | cons b l ih =>
    intro a x hx
    rcases List.mem_cons.mp hx with h | h
    · subst h
      exact le_trans (le_max_right a x) (le_foldl_max_init l (max a x))
    · exact ih (max a b) x h

lemma foldl_max_mem (l : List ℚ) : ∀ a : ℚ, l.foldl max a = a ∨ l.foldl max a ∈ l := by
  induction l with
  | nil => intro a; exact Or.inl rfl
  | cons b l ih =>
    intro a
    rcases ih (max a b) with h | h
    · rcases max_choice a b with hc | hc
      · exact Or.inl (by rw [List.foldl_cons, h, hc])
      · refine Or.inr ?_
        rw [List.foldl_cons, h, hc]
        exact List.mem_cons_self b l
    · exact Or.inr (List.mem_cons_of_mem b h)

lemma npMax_le {xs : List ℚ} {m : ℚ} (h : npMax xs = some m) :
    ∀ x ∈ xs, x ≤ m := by
  cases xs with
  | nil => cases h
  | cons a l =>
    intro x hx
    have hm : m = l.foldl max a := by
      simpa [npMax] using h.symm
    subst hm
    rcases List.mem_cons.mp hx with h | h
    · subst h; exact le_foldl_max_init l x
    · exact le_foldl_max_of_mem l a x h

lemma npMax_mem {xs : List ℚ} {m : ℚ} (h : npMax xs = some m) : m ∈ xs := by
  cases xs with
  | nil => cases h
  | cons a l =>
    have hm : m = l.foldl max a := by
      simpa [npMax] using h.symm
    subst hm
    rcases foldl_max_mem l a with h | h
    · rw [h]; exact List.mem_cons_self a l
    · exact List.mem_cons_of_mem a h

lemma npMax_map (f : ℚ → ℚ) (hf : ∀ a b, f (max a b) = max (f a) (f b)) :
    ∀ xs : List ℚ, npMax (xs.map f) = (npMax xs).map f := by
  have key : ∀ (l : List ℚ) (a : ℚ), (l.map f).foldl max (f a) = f (l.foldl max a) := by
    intro l
    induction l with
    | nil => intro a; rfl
    | cons b l ih =>
      intro a
      calc ((b :: l).map f).foldl max (f a)
          = (l.map f).foldl max (max (f a) (f b)) := rfl
        _ = (l.map f).foldl max (f (max a b)) := by rw [hf]
        _ = f (l.foldl max (max a b)) := ih (max a b)
  intro xs
  cases xs with
  | nil => rfl
  | cons a l => simp [npMax, key l a]

lemma peakOf_eq_none_iff (xs : List ℚ) : peakOf xs = none ↔ xs = [] := by
  cases xs <;> simp [peakOf, npMax]

lemma peakOf_le {xs : List ℚ} {p : ℚ} (h : peakOf xs = some p) :
    ∀ x ∈ xs, |x| ≤ p := by
  intro x hx
  exact npMax_le h |x| (List.mem_map_of_mem (fun y => |y|) hx)

lemma peakOf_nonneg {xs : List ℚ} {p : ℚ} (h : peakOf xs = some p) : 0 ≤ p := by
  rcases List.mem_map.mp (npMax_mem h) with ⟨x, _, hx⟩
  rw [← hx]
  exact abs_nonneg x

lemma peakOf_pos {xs : List ℚ} {p x : ℚ} (hx : x ∈ xs) (hx0 : x ≠ 0)
    (h : peakOf xs = some p) : 0 < p :=
  lt_of_lt_of_le (abs_pos.mpr hx0) (peakOf_le h x hx)

lemma peakOf_all_zero {xs : List ℚ} {p : ℚ} (hz : ∀ x ∈ xs, x = 0)
    (h : peakOf xs = some p) : p = 0 := by
  rcases List.mem_map.mp (npMax_mem h) with ⟨x, hxm, hx⟩
  rw [← hx, hz x hxm, abs_zero]

lemma peakOf_map (f : ℚ → ℚ) (hmax : ∀ a b, f (max a b) = max (f a) (f b))
    (habs : ∀ x, |f x| = f |x|) (xs : List ℚ) :
    peakOf (xs.map f) = (peakOf xs).map f := by
  unfold peakOf
  rw [List.map_map, show ((fun x => |x|) ∘ f) = (f ∘ fun x => |x|) from funext habs,
    ← List.map_map, npMax_map f hmax]

lemma div_map_max {p : ℚ} (hp : 0 < p) (a b : ℚ) :
    max a b / p = max (a / p) (b / p) :=
  ((monotone_id.div_const (le_of_lt hp)).map_max)

lemma div_mul_map_max {p c : ℚ} (hp : 0 < p) (hc : 0 ≤ c) (a b : ℚ) :
    max a b / p * c = max (a / p * c) (b / p * c) :=
  (((monotone_id.div_const (le_of_lt hp)).mul_const hc).map_max)

lemma peakOf_map_div {p : ℚ} (hp : 0 < p) (xs : List ℚ) :
    peakOf (xs.map (fun x => x / p)) = (peakOf xs).map (fun m => m / p) :=
  peakOf_map (fun x => x / p) (div_map_max hp)
    (fun x => by rw [abs_div, abs_of_pos hp]) xs

lemma peakOf_map_rescale {p : ℚ} (hp : 0 < p) (xs : List ℚ) :
    peakOf (xs.map (fun x => x / p * 0.95)) =
      (peakOf xs).map (fun m => m / p * 0.95) :=
  peakOf_map (fun x => x / p * 0.95)
    (div_mul_map_max hp (by norm_num))
    (fun x => by
      rw [abs_mul, abs_div, abs_of_pos hp, abs_of_pos (show (0:ℚ) < 0.95 by norm_num)])
    xs

/-! ## Helper lemmas about the normalization stage -/

lemma normalizeStep_all_zero {xs ys : List ℚ} (hz : ∀ x ∈ xs, x = 0)
    (h : normalizeStep xs = Except.ok ys) : ys = xs := by
  cases hpk : peakOf xs with
  | none => simp only [normalizeStep, hpk] at h; cases h
  | some p =>
    have hp0 : p = 0 := peakOf_all_zero hz hpk
    subst hp0
    simp only [normalizeStep, hpk, lt_irrefl, if_neg, gt_iff_lt,
      Except.ok.injEq] at h
    exact h.symm

lemma normalizeStep_not_all_zero {xs ys : List ℚ} {x : ℚ} (hx : x ∈ xs)
    (hx0 : x ≠ 0) (h : normalizeStep xs = Except.ok ys) : peakOf ys = some 1 := by
  cases hpk : peakOf xs with
  | none => simp only [normalizeStep, hpk] at h; cases h
  | some p =>
    have hp : 0 < p := peakOf_pos hx hx0 hpk
    simp only [normalizeStep, hpk, gt_iff_lt, hp, if_pos, Except.ok.injEq] at h
    rw [← h, peakOf_map_div hp, hpk, Option.map_some', div_self (ne_of_gt hp)]

lemma normalizeStep_peak_one {xs : List ℚ} (h : peakOf xs = some 1) :
    normalizeStep xs = Except.ok xs := by
  simp only [normalizeStep, h, gt_iff_lt, zero_lt_one, if_pos, div_one,
    List.map_id', Except.ok.injEq]

lemma normalizeStep_dichotomy {xs ys : List ℚ} (h : normalizeStep xs = Except.ok ys) :
    ((∀ x ∈ xs, x = 0) ∧ ys = xs) ∨ peakOf ys = some 1 := by
  by_cases hz : ∀ x ∈ xs, x = 0
  · exact Or.inl ⟨hz, normalizeStep_all_zero hz h⟩
  · push_neg at hz
    rcases hz with ⟨x, hx, hx0⟩
    exact Or.inr (normalizeStep_not_all_zero hx hx0 h)

/-! ## Helper lemmas about the axis-0 reduction -/

lemma vecAdd_length (a b : List ℚ) : (vecAdd a b).length = min a.length b.length :=
  List.length_zipWith (· + ·) a b

lemma vecAdd_getD (a b : List ℚ) (i : ℕ) (ha : i < a.length) (hb : i < b.length) :
    (vecAdd a b).getD i 0 = a.getD i 0 + b.getD i 0 := by
  have hab : i < (vecAdd a b).length := by
    rw [vecAdd_length]; exact lt_min ha hb
  rw [List.getD_eq_getElem _ _ hab, List.getD_eq_getElem _ _ ha,
    List.getD_eq_getElem _ _ hb]
  exact List.getElem_zipWith

lemma foldl_vecAdd_length (rs : List (List ℚ)) :
    ∀ (r : List ℚ) (n : ℕ), r.length = n → (∀ s ∈ rs, s.length = n) →
      (rs.foldl vecAdd r).length = n := by
  induction rs with
  | nil => intro r n hr _; exact hr
  | cons s rs ih =>
    intro r n hr hrs
    have hs : s.length = n := hrs s (List.mem_cons_self s rs)
    refine ih (vecAdd r s) n ?_ (fun t ht => hrs t (List.mem_cons_of_mem s ht))
    rw [vecAdd_length, hr, hs, min_self]

lemma foldl_vecAdd_getD (rs : List (List ℚ)) :
    ∀ (r : List ℚ) (n i : ℕ), r.length = n → (∀ s ∈ rs, s.length = n) → i < n →
      (rs.foldl vecAdd r).getD i 0 = r.getD i 0 + (rs.map (fun s => s.getD i 0)).sum := by
  induction rs with
  | nil => intro r n i _ _ _; simp
  | cons s rs ih =>
    intro r n i hr hrs hi
    have hs : s.length = n := hrs s (List.mem_cons_self s rs)
    have hrs' : ∀ t ∈ rs, t.length = n := fun t ht => hrs t (List.mem_cons_of_mem s ht)
    have hadd : (vecAdd r s).length = n := by
      rw [vecAdd_length, hr, hs, min_self]
    calc ((s :: rs).foldl vecAdd r).getD i 0
        = (rs.foldl vecAdd (vecAdd r s)).getD i 0 := rfl
      _ = (vecAdd r s).getD i 0 + (rs.map (fun t => t.getD i 0)).sum :=
          ih (vecAdd r s) n i hadd hrs' hi
      _ = r.getD i 0 + (s.getD i 0 + (rs.map (fun t => t.getD i 0)).sum) := by
          rw [vecAdd_getD r s i (hr ▸ hi) (hs ▸ hi), add_assoc]
      _ = r.getD i 0 + ((s :: rs).map (fun t => t.getD i 0)).sum := by
          rw [List.map_cons, List.sum_cons]

lemma npSumAxis0_length {rows : List (List ℚ)} {n : ℕ} (hne : rows ≠ [])
    (hrect : ∀ r ∈ rows, r.length = n) : (npSumAxis0 rows).length = n := by
  cases rows with
  | nil => exact absurd rfl hne
  | cons r rs =>
    exact foldl_vecAdd_length rs r n (hrect r (List.mem_cons_self r rs))
      (fun t ht => hrect t (List.mem_cons_of_mem r ht))

lemma npSumAxis0_getD {rows : List (List ℚ)} {n : ℕ} (hne : rows ≠ [])
    (hrect : ∀ r ∈ rows, r.length = n) (i : ℕ) (hi : i < n) :
    (npSumAxis0 rows).getD i 0 = (rows.map (fun r => r.getD i 0)).sum := by
  cases rows with
  | nil => exact absurd rfl hne
  | cons r rs =>
    calc (npSumAxis0 (r :: rs)).getD i 0
        = (rs.foldl vecAdd r).getD i 0 := rfl
      _ = r.getD i 0 + (rs.map (fun t => t.getD i 0)).sum :=
          foldl_vecAdd_getD rs r n i (hrect r (List.mem_cons_self r rs))
            (fun t ht => hrect t (List.mem_cons_of_mem r ht)) hi
      _ = ((r :: rs).map (fun t => t.getD i 0)).sum := by
          rw [List.map_cons, List.sum_cons]

/-! ## Helper lemmas about the pipeline wrappers -/

lemma decodePath_some {toMono : DecodedArray → List ℚ}
    {decoded : Option (DecodedArray × ℕ)} {ys : List ℚ} {sr : ℕ}
    (h : decodePath toMono decoded = some (ys, sr)) :
    ∃ xs, normalizeStep xs = Except.ok ys := by
  cases decoded with
  | none => exact Option.noConfusion (by simpa only [decodePath] using h)
  | some pair =>
    obtain ⟨arr, sr'⟩ := pair
    cases hn : normalizeStep (toMono arr) with
    | error e => exact Option.noConfusion (by simpa only [decodePath, hn] using h)
    | ok zs =>
      simp only [decodePath, hn, Option.some.injEq, Prod.mk.injEq] at h
      exact ⟨toMono arr, by rw [hn, h.1]⟩

lemma load_audio_some {primary fallback : Option (DecodedArray × ℕ)}
    {ys : List ℚ} {sr : ℕ}
    (h : (load_audio primary fallback).audio_result = some (ys, sr)) :
    ∃ xs, normalizeStep xs = Except.ok ys := by
  cases h1 : decodePath toMonoAxis0 primary with
  | some r =>
    simp only [load_audio, h1] at h
    exact decodePath_some ((Option.some.inj h) ▸ h1)
  | none =>
    cases h2 : decodePath toMonoAxis1 fallback with
    | some r =>
      simp only [load_audio, h1, h2] at h
      exact decodePath_some ((Option.some.inj h) ▸ h2)
    | none =>
      simp only [load_audio, h1, h2] at h
      exact Option.noConfusion h

lemma audio_to_bytes_ok {a : List ℚ} {sr : ℕ} {w : WavFile}
    (h : audio_to_bytes a sr = Except.ok w) :
    exportRescale a = Except.ok w.samples ∧ w.samplerate = sr ∧
      w.format = "WAV" ∧ w.subtype = "PCM_16" := by
  cases he : exportRescale a with
  | error e => exact Except.noConfusion (by simpa only [audio_to_bytes, he] using h)
  | ok scaled =>
    simp only [audio_to_bytes, he, Except.ok.injEq] at h
    subst h
    exact ⟨rfl, rfl, rfl, rfl⟩

lemma exportRescale_pos {a : List ℚ} {p : ℚ} (hpk : peakOf a = some p) (hp : 0 < p) :
    exportRescale a = Except.ok (a.map (fun x => x / p * 0.95)) := by
  simp only [exportRescale, hpk, gt_iff_lt, hp, if_pos]

lemma exportRescale_zero {a : List ℚ} (hpk : peakOf a = some 0) :
    exportRescale a = Except.ok a := by
  simp [exportRescale, hpk]

/-! ## Helper lemmas about the split on dots -/

lemma pySplit_ne_nil (sep : Char) : ∀ cs : List Char, pySplit sep cs ≠ [] := by
  intro cs
  induction cs with
  | nil => simp [pySplit]
  | cons c cs ih =>
    cases h : pySplit sep cs with
    | nil => exact absurd h ih
    | cons r rs =>
      by_cases hc : c = sep <;> simp [pySplit, h, hc]

lemma joinDot_cons_cons (c : Char) (r : List Char) (rs : List (List Char)) :
    joinDot ((c :: r) :: rs) = c :: joinDot (r :: rs) := by
  cases rs <;> rfl

lemma joinDot_pySplit : ∀ cs : List Char, joinDot (pySplit '.' cs) = cs := by
  intro cs
  induction cs with
  | nil => rfl
  | cons c cs ih =>
    cases h : pySplit '.' cs with
    | nil => exact absurd h (pySplit_ne_nil '.' cs)
    | cons r rs =>
      rw [h] at ih
      by_cases hc : c = '.'
      · subst hc
        simp only [pySplit, h, if_pos]
        show '.' :: joinDot (r :: rs) = '.' :: cs
        rw [ih]
      · simp only [pySplit, h, hc, if_neg, not_false_iff]
        rw [joinDot_cons_cons, ih]

/-! ## Claim theorems -/

/-- C1: for every successfully decoded input signal, the signal returned by
Ingest/Normalize (`load_audio`) has peak absolute amplitude exactly 1,
unless the decoded signal is all-zero, in which case it is returned
unchanged (still all-zero). Stated both for the normalization step at lines
28–30 of `src/app.py` and for every successful return of `load_audio`. -/
theorem c1_ingest_peak_normalized :
    (∀ xs ys, normalizeStep xs = Except.ok ys →
      ((∀ x ∈ xs, x = 0) → ys = xs) ∧ ((∃ x ∈ xs, x ≠ 0) → peakOf ys = some 1)) ∧
    (∀ primary fallback ys sr,
      (load_audio primary fallback).audio_result = some (ys, sr) →
      (∀ x ∈ ys, x = 0) ∨ peakOf ys = some 1) := by
  constructor
  · intro xs ys h
    exact ⟨fun hz => normalizeStep_all_zero hz h,
      fun ⟨x, hx, hx0⟩ => normalizeStep_not_all_zero hx hx0 h⟩
  · intro primary fallback ys sr h
    obtain ⟨xs, hxs⟩ := load_audio_some h
    rcases normalizeStep_dichotomy hxs with ⟨hz, hEq⟩ | hpk
    · subst hEq
      exact Or.inl hz
    · exact Or.inr hpk

/-- Witness for C1 at the concrete input [1, 0]. -/
theorem c1_witness :
    normalizeStep [(1:ℚ), 0] = Except.ok [1, 0] ∧ peakOf [(1:ℚ), 0] = some 1 := by
  have h : normalizeStep [(1:ℚ), 0] = Except.ok [1, 0] := by
    simp [normalizeStep, peakOf, npMax]
  exact ⟨h, (c1_ingest_peak_normalized.1 _ _ h).2 ⟨1, by simp, one_ne_zero⟩⟩

/-- C2: Render/Export (`audio_to_bytes`, lines 79–81 of `src/app.py`)
rescales the signal so its peak absolute amplitude equals exactly 0.95 when
the peak is positive, leaves it unchanged when the peak is 0, and hence the
samples handed to the WAV writer have absolute value at most 0.95. -/
theorem c2_export_rescaled_to_095 :
    ∀ audio_data sample_rate w,
      audio_to_bytes audio_data sample_rate = Except.ok w →
      (∀ p, peakOf audio_data = some p → p > 0 → peakOf w.samples = some 0.95) ∧
      (peakOf audio_data = some 0 → w.samples = audio_data) ∧
      (∀ q ∈ w.samples, |q| ≤ 0.95) := by
  intro a sr w h
  obtain ⟨hres, -, -, -⟩ := audio_to_bytes_ok h
  refine ⟨?_, ?_, ?_⟩
  · intro p hpk hp
    rw [exportRescale_pos hpk hp, Except.ok.injEq] at hres
    rw [← hres, peakOf_map_rescale hp, hpk, Option.map_some',
      div_self (ne_of_gt hp), one_mul]
  · intro hpk
    rw [exportRescale_zero hpk, Except.ok.injEq] at hres
    exact hres.symm
  · intro q hq
    cases hpk : peakOf a with
    | none =>
      have ha : a = [] := (peakOf_eq_none_iff a).mp hpk
      subst ha
      exact Except.noConfusion
        (by simpa only [exportRescale, peakOf, npMax, List.map_nil] using hres)
    | some p =>
      have hp0 : 0 ≤ p := peakOf_nonneg hpk
      rcases lt_or_eq_of_le hp0 with hp | hp
      · rw [exportRescale_pos hpk hp, Except.ok.injEq] at hres
        rw [← hres] at hq
        rcases List.mem_map.mp hq with ⟨x, hx, hxq⟩
        have hxle : |x| ≤ p := peakOf_le hpk x hx
        have h1 : |x| / p ≤ 1 := (div_le_one hp).mpr hxle
        calc |q| = |x / p * 0.95| := by rw [hxq]
          _ = |x| / p * 0.95 := by
              rw [abs_mul, abs_div, abs_of_pos hp,
                abs_of_pos (show (0:ℚ) < 0.95 by norm_num)]
          _ ≤ 1 * 0.95 := mul_le_mul_of_nonneg_right h1 (by norm_num)
          _ = 0.95 := one_mul _
      · rw [exportRescale_zero (hp ▸ hpk), Except.ok.injEq] at hres
        rw [← hres] at hq
        have : |q| ≤ p := hp ▸ peakOf_le hpk q hq
        calc |q| ≤ p := this
          _ = 0 := hp.symm
          _ ≤ 0.95 := by norm_num

/-- Witness for C2 at the concrete input [1] with sample rate 8000. -/
theorem c2_witness :
    (audio_to_bytes [(1:ℚ)] 8000 = Except.ok
      { samples := [0.95], samplerate := 8000, format := "WAV", subtype := "PCM_16" }) ∧
    peakOf [(0.95:ℚ)] = some 0.95 := by
  have h : audio_to_bytes [(1:ℚ)] 8000 = Except.ok
      { samples := [0.95], samplerate := 8000, format := "WAV", subtype := "PCM_16" } := by
    simp [audio_to_bytes, exportRescale, peakOf, npMax]
  refine ⟨h, ?_⟩
  have := (c2_export_rescaled_to_095 [(1:ℚ)] 8000 _ h).1 1 (by simp [peakOf, npMax]) one_pos
  simpa using this

/-- C4 (code bug): when both decoders fail, `load_audio` returns
`(None, None)` from the outer exception handler without ever reaching
`os.unlink(tmp_file_path)` at line 42 — the temporary file is NOT deleted
on this exit path, contradicting the claim that it is deleted on every
exit path. The two `none` arguments model both external decoders raising
on the same temporary file. -/
theorem c4_temp_file_not_deleted_on_double_failure :
    (load_audio none none).tmpUnlinked = false ∧
    (load_audio none none).audio_result = none :=
  ⟨rfl, rfl⟩

/-- C5: `audio_to_bytes` passes `subtype='PCM_16'` (16-bit signed PCM,
never the library default), `format='WAV'`, and the caller's sample rate
unchanged to the WAV writer, for every input on which it succeeds. -/
theorem c5_wav_is_pcm16_at_input_rate :
    ∀ audio_data sample_rate w,
      audio_to_bytes audio_data sample_rate = Except.ok w →
      w.subtype = "PCM_16" ∧ w.samplerate = sample_rate ∧ w.format = "WAV" := by
  intro a sr w h
  obtain ⟨-, h1, h2, h3⟩ := audio_to_bytes_ok h
  exact ⟨h3, h1, h2⟩

/-- Witness for C5 at the concrete input [1] with sample rate 16000. -/
theorem c5_witness :
    (audio_to_bytes [(1:ℚ)] 16000 = Except.ok
      { samples := [0.95], samplerate := 16000, format := "WAV", subtype := "PCM_16" }) ∧
    ("PCM_16" = "PCM_16" ∧ (16000:ℕ) = 16000 ∧ "WAV" = "WAV") := by
  have h : audio_to_bytes [(1:ℚ)] 16000 = Except.ok
      { samples := [0.95], samplerate := 16000, format := "WAV", subtype := "PCM_16" } := by
    simp [audio_to_bytes, exportRescale, peakOf, npMax]
  exact ⟨h, c5_wav_is_pcm16_at_input_rate [(1:ℚ)] 16000 _ h⟩

/-- C3: both mono-collapse paths of `load_audio` compute, at every sample
index, the arithmetic mean across channels: the axis-0 reduction at line 26
(librosa channel-major layout) and the axis-1 reduction at line 37
(soundfile frame-major layout of the same signal) both equal the spec's
per-index mean, and the spec's 2-channel example evaluates as stated. -/
theorem c3_mono_collapse_is_channel_mean :
    npMeanAxis1 [[1, -1], [1/2, 1/2]] = [0, 1/2] ∧
    ∀ rows n, rows ≠ [] → (∀ r ∈ rows, r.length = n) →
      npMeanAxis0 rows = specMonoChannelMajor rows n ∧
      npMeanAxis1 (frameMajorView rows n) = specMonoChannelMajor rows n := by
  constructor
  · norm_num [npMeanAxis1]
  · intro rows n hne hrect
    have hlen0 : (npSumAxis0 rows).length = n := npSumAxis0_length hne hrect
    constructor
    · apply List.ext_getElem
      · simp [npMeanAxis0, specMonoChannelMajor, hlen0]
      · intro i h1 h2
        have hi : i < n := by
          rw [← hlen0]
          simpa [npMeanAxis0] using h1
        have hslen : i < (npSumAxis0 rows).length := by
          rw [hlen0]; exact hi
        simp only [npMeanAxis0, specMonoChannelMajor, List.getElem_map,
          List.getElem_range]
        rw [← List.getD_eq_getElem (npSumAxis0 rows) 0 hslen,
          npSumAxis0_getD hne hrect i hi]
    · simp only [npMeanAxis1, frameMajorView, specMonoChannelMajor, List.map_map]
      apply List.map_congr_left
      intro i _
      simp [Function.comp, List.length_map]

/-- Witness for C3 at the concrete 2-channel, 2-sample input
[[1, 2], [3, 4]] (channel-major). -/
theorem c3_witness :
    ([[ (1:ℚ), 2], [3, 4]] ≠ ([] : List (List ℚ))) ∧
    npMeanAxis0 [[1, 2], [3, 4]] = specMonoChannelMajor [[1, 2], [3, 4]] 2 :=
  ⟨by simp, (c3_mono_collapse_is_channel_mean.2 [[1, 2], [3, 4]] 2 (by simp)
    (by simp)).1⟩

/-- C6: the denoise step returns a signal of identical length and the
sample rate associated with it is unchanged, provided the external
`nr.reduce_noise` routine satisfies its documented contract of returning a
signal of the input's length (spec §4.2 treats it as a correctness-opaque
dependency with exactly that contract). -/
theorem c6_denoise_preserves_length_and_rate :
    ∀ (reduceNoise : List ℚ → ℕ → Bool → ℚ → Option (List ℚ)),
      (∀ y sr stationary pd out, reduceNoise y sr stationary pd = some out →
        out.length = y.length) →
      ∀ sig stationary pd out,
        denoiseStage reduceNoise sig stationary pd = some out →
        out.1.length = sig.1.length ∧ out.2 = sig.2 := by
  intro reduceNoise hcontract sig stationary pd out h
  cases hr : reduceNoise sig.1 sig.2 stationary pd with
  | none =>
    exact Option.noConfusion (by simpa only [denoiseStage, remove_noise, hr] using h)
  | some cleaned =>
    simp only [denoiseStage, remove_noise, hr, Option.some.injEq] at h
    rw [← h]
    exact ⟨hcontract sig.1 sig.2 stationary pd cleaned hr, rfl⟩

/-- Witness for C6 with the length-preserving routine that reverses the
signal, at the concrete input ([1, 0], 44100). -/
theorem c6_witness :
    (denoiseStage (fun y _ _ _ => some y.reverse) ([(1:ℚ), 0], 44100) true (8/10)
      = some ([0, 1], 44100)) ∧
    ([(0:ℚ), 1].length = [(1:ℚ), 0].length ∧ (44100:ℕ) = 44100) := by
  have h : denoiseStage (fun y _ _ _ => some y.reverse) ([(1:ℚ), 0], 44100) true (8/10)
      = some ([0, 1], 44100) := by
    simp [denoiseStage, remove_noise]
  exact ⟨h, c6_denoise_preserves_length_and_rate _
    (fun y _ _ _ out ho => by rw [← Option.some.inj ho]; exact List.length_reverse y)
    _ _ _ _ h⟩

/-- C7: in both normalization stages the division by the peak executes only
when the peak is strictly positive (so its divisor is nonzero), and on a
zero-length or all-zero signal the guard is false in both stages — no
divide-by-zero is possible. -/
theorem c7_no_divide_by_zero :
    ∀ xs : List ℚ,
      (normalizeDivides xs = true → ∃ p, peakOf xs = some p ∧ p > 0) ∧
      (exportDivides xs = true → ∃ p, peakOf xs = some p ∧ p > 0) ∧
      ((∀ x ∈ xs, x = 0) → normalizeDivides xs = false ∧ exportDivides xs = false) := by
  intro xs
  have hg : ∀ b : Bool,
      (match peakOf xs with
        | none => false
        | some p => decide (p > 0)) = true → ∃ p, peakOf xs = some p ∧ p > 0 := by
    intro _ h
    cases hpk : peakOf xs with
    | none => rw [hpk] at h; cases h
    | some p =>
      rw [hpk] at h
      exact ⟨p, rfl, of_decide_eq_true h⟩
  refine ⟨hg true, hg true, ?_⟩
  intro hz
  cases hpk : peakOf xs with
  | none => simp [normalizeDivides, exportDivides, hpk]
  | some p =>
    have hp0 : p = 0 := peakOf_all_zero hz hpk
    subst hp0
    simp [normalizeDivides, exportDivides, hpk]

/-- Witness for C7 at the all-zero concrete input [0, 0]. -/
theorem c7_witness :
    (∀ x ∈ [(0:ℚ), 0], x = 0) ∧
    (normalizeDivides [(0:ℚ), 0] = false ∧ exportDivides [(0:ℚ), 0] = false) :=
  ⟨by simp, (c7_no_divide_by_zero [0, 0]).2.2 (by simp)⟩

/-- C8 counterexample: for the upload name "a.b.wav" the code produces
"cleaned_a.wav" (prefix before the FIRST dot), while the claim's
"cleaned_" ++ basename-without-extension ++ ".wav" is "cleaned_a.b.wav";
the two differ. -/
theorem c8_counterexample :
    downloadFileName "a.b.wav".data = "cleaned_a.wav".data ∧
    "cleaned_".data ++ specBasename "a.b.wav".data ++ ".wav".data
      = "cleaned_a.b.wav".data ∧
    downloadFileName "a.b.wav".data ≠
      "cleaned_".data ++ specBasename "a.b.wav".data ++ ".wav".data := by
  refine ⟨by decide, by decide, by decide⟩

/-- C8 (amended): for every uploaded file name containing at most one dot,
the download is offered with filename "cleaned_" ++ the name's basename
(name without its extension) ++ ".wav" and MIME type audio/wav; in
general the code uses the portion of the name before the FIRST dot rather
than the basename. -/
theorem c8_download_filename :
    ∀ name : List Char, (pySplit '.' name).length ≤ 2 →
      downloadFileName name = "cleaned_".data ++ specBasename name ++ ".wav".data ∧
      downloadMime = "audio/wav" := by
  intro name hlen
  refine ⟨?_, rfl⟩
  unfold downloadFileName pySplitDotHead specBasename
  cases h : pySplit '.' name with
  | nil => exact absurd h (pySplit_ne_nil '.' name)
  | cons p ps =>
    cases ps with
    | nil =>
      have hname : p = name := by
        have := joinDot_pySplit name
        rw [h] at this
        exact this
      simp [hname]
    | cons q qs =>
      cases qs with
      | nil => simp [joinDot]
      | cons r rs =>
        rw [h] at hlen
        simp at hlen

/-- Witness for C8 (amended) at the concrete upload name "song.mp3". -/
theorem c8_witness :
    ((pySplit '.' "song.mp3".data).length ≤ 2) ∧
    (downloadFileName "song.mp3".data
        = "cleaned_".data ++ specBasename "song.mp3".data ++ ".wav".data ∧
      downloadMime = "audio/wav") :=
  ⟨by decide, c8_download_filename "song.mp3".data (by decide)⟩

/-- C9: at the exposed denoise interface (the sidebar widgets that `main`
always passes through to `remove_noise`), the noise-reduction strength
slider has default 0.8, range [0.1, 1.0] and step 0.1, and the stationary
checkbox defaults to true. -/
theorem c9_interface_parameter_defaults :
    propDecreaseSlider.value = 0.8 ∧ propDecreaseSlider.min_value = 0.1 ∧
    propDecreaseSlider.max_value = 1.0 ∧ propDecreaseSlider.step = 0.1 ∧
    stationaryCheckbox.value = true :=
  ⟨rfl, rfl, rfl, rfl, rfl⟩

/-- C10: the peak normalization of Ingest/Normalize is idempotent — a
non-empty signal whose peak is already exactly 1 is returned unchanged,
and applying the normalization step to its own successful output changes
nothing. -/
theorem c10_normalization_idempotent :
    ∀ xs : List ℚ,
      (peakOf xs = some 1 → normalizeStep xs = Except.ok xs) ∧
      (∀ ys, normalizeStep xs = Except.ok ys → normalizeStep ys = Except.ok ys) := by
  intro xs
  refine ⟨normalizeStep_peak_one, ?_⟩
  intro ys h
  rcases normalizeStep_dichotomy h with ⟨hz, hEq⟩ | hpk
  · subst hEq
    exact h
  · exact normalizeStep_peak_one hpk

/-- Witness for C10 at the concrete input [1], whose peak is already 1. -/
theorem c10_witness :
    peakOf [(1:ℚ)] = some 1 ∧ normalizeStep [(1:ℚ)] = Except.ok [1] :=
  ⟨by simp [peakOf, npMax],
    (c10_normalization_idempotent [1]).1 (by simp [peakOf, npMax])⟩

end NoiseRemovalApp
